import Mathlib

/-!
# Verification of the company-research pipeline orchestrator

A shallow embedding of the orchestration core of the repository
(`application.py` and `backend/nodes/briefing.py`) together with proofs of
the specified properties.

Modelling conventions:
* Python strings are Lean `String`s; `len` is `String.length` (character
  count, as in Python 3).
* Python `float` values are modelled as rationals (`ℚ`); the claims under
  scrutiny only compare scores, never exercise rounding.
* A Python expression that may raise is an `Except String` value whose
  `error` carries the exception class name.
* Optional / possibly-missing dictionary entries are `Option` values.
-/

namespace CRA

/-! ## Python `float()` on strings (simplified decimal grammar)

`float(s)` strips whitespace and parses an optionally signed decimal
numeral; any other string raises `ValueError`.  (Exponents / `inf` / `nan`
are not needed by the inputs considered here.) -/

/-- Value of a list of decimal digit characters; `none` if a non-digit occurs. -/
def digitsVal (cs : List Char) : Option Nat :=
  cs.foldl
    (fun acc c =>
      match acc with
      | none => none
      | some n => if c.isDigit then some (n * 10 + (c.toNat - 48)) else none)
    (some 0)

/-- Parse an unsigned decimal numeral (digits, optionally with one point). -/
def parseUnsigned (cs : List Char) : Option ℚ :=
  let intPart := cs.takeWhile Char.isDigit
  let rest := cs.dropWhile Char.isDigit
  match rest with
  | [] =>
    if intPart.isEmpty then none
    else (digitsVal intPart).map (fun n => (n : ℚ))
  | '.' :: frac =>
    if frac.all Char.isDigit && !(intPart.isEmpty && frac.isEmpty) then
      match digitsVal intPart, digitsVal frac with
      | some i, some f => some ((i : ℚ) + (f : ℚ) / (10 : ℚ) ^ frac.length)
      | _, _ => none
    else none
  | _ => none

/-- Whitespace stripping on both ends (Python `str.strip()` semantics). -/
def pyTrimChars (cs : List Char) : List Char :=
  ((cs.dropWhile Char.isWhitespace).reverse.dropWhile Char.isWhitespace).reverse

/-- Python `float(s)` for a string argument: `some q` when it parses,
`none` when `float` would raise `ValueError`. -/
def parseFloat (s : String) : Option ℚ :=
  match pyTrimChars s.data with
  | [] => none
  | '+' :: rest => parseUnsigned rest
  | '-' :: rest => (parseUnsigned rest).map Neg.neg
  | cs => parseUnsigned cs

/-! ## Documents and the evaluation score (briefing.py lines 247-257) -/

/-- A Python value stored under `evaluation.overall_score`. -/
inductive PyScore
  | num (q : ℚ)
  | str (s : String)
  | null
deriving DecidableEq

/-- Python `float(v)`: numbers convert, strings parse or raise `ValueError`,
`None` raises `TypeError`. -/
def pyFloat : PyScore → Except String ℚ
  | .num q => .ok q
  | .str s =>
    match parseFloat s with
    | some q => .ok q
    | none => .error "ValueError"
  | .null => .error "TypeError"

/-- A curated document as consumed by `generate_category_briefing`.
`none` fields model a missing dictionary key. -/
structure Doc where
  title : Option String := none
  raw_content : Option String := none
  content : Option String := none
  /-- Field `evaluation.overall_score`; `none` when `evaluation` or the score key
  is absent (the code then takes the default string `'0'`). -/
  overall_score : Option PyScore := none
deriving DecidableEq

/-- The sort key of one document:
`float(x[1].get('evaluation', \x7b\x7d).get('overall_score', '0'))`. -/
def scoreKey (d : Doc) : Except String ℚ :=
  pyFloat (d.overall_score.getD (.str "0"))

/-- Keys of all documents, computed before sorting (as CPython `sorted` with
a `key` function does); the first raising key computation aborts the sort. -/
def computeKeys (docs : List Doc) : Except String (List (ℚ × Doc)) :=
  docs.mapM (fun d => (scoreKey d).map (fun q => (q, d)))

/-- Insert a keyed document after every element of at-least-equal key:
the insertion step of a stable descending sort. -/
def insertDesc (p : ℚ × Doc) : List (ℚ × Doc) → List (ℚ × Doc)
  | [] => [p]
  | q :: rest => if p.1 ≤ q.1 then q :: insertDesc p rest else p :: q :: rest

/-- Stable descending sort on keyed documents, modelling CPython's stable
`sorted(..., reverse=True)`. -/
def sortDesc (l : List (ℚ × Doc)) : List (ℚ × Doc) :=
  l.foldl (fun a x => insertDesc x a) []

/-- Model of `sorted(items, key=lambda x: float(...), reverse=True)` from
`generate_category_briefing`; raises whenever some key computation raises. -/
def sortedDocs (docs : List Doc) : Except String (List Doc) :=
  (computeKeys docs).map (fun l => (sortDesc l).map Prod.snd)

/-! ### Sorting lemmas: descending order, stability, permutation -/

theorem insertDesc_perm (p : ℚ × Doc) (l : List (ℚ × Doc)) :
    List.Perm (insertDesc p l) (p :: l) := by
  induction l with
  | nil => simp [insertDesc]
  | cons q rest ih =>
    by_cases h : p.1 ≤ q.1
    · simp only [insertDesc, if_pos h]
      exact (ih.cons q).trans (List.Perm.swap p q rest)
    · simp [insertDesc, if_neg h]

theorem insertDesc_sorted (p : ℚ × Doc) (l : List (ℚ × Doc))
    (h : l.Pairwise (fun a b => b.1 ≤ a.1)) :
    (insertDesc p l).Pairwise (fun a b => b.1 ≤ a.1) := by
  induction l with
  | nil => simp [insertDesc]
  | cons q rest ih =>
    rcases List.pairwise_cons.mp h with ⟨hq, hrest⟩
    by_cases hle : p.1 ≤ q.1
    · simp only [insertDesc, if_pos hle]
      refine List.pairwise_cons.mpr ⟨?_, ih hrest⟩
      intro a ha
      have hmem := (insertDesc_perm p rest).mem_iff.mp ha
      rcases List.mem_cons.mp hmem with rfl | h2
      · exact hle
      · exact hq a h2
    · simp only [insertDesc, if_neg hle]
      push_neg at hle
      refine List.pairwise_cons.mpr ⟨?_, h⟩
      intro a ha
      rcases List.mem_cons.mp ha with rfl | ha
      · exact le_of_lt hle
      · exact le_trans (hq a ha) (le_of_lt hle)

theorem insertDesc_filter (p : ℚ × Doc) (l : List (ℚ × Doc)) (k : ℚ)
    (h : l.Pairwise (fun a b => b.1 ≤ a.1)) :
    (insertDesc p l).filter (fun q => q.1 == k) =
      l.filter (fun q => q.1 == k) ++ (if p.1 == k then [p] else []) := by
  induction l with
  | nil => cases hpk : (p.1 == k) <;> simp [insertDesc, List.filter, hpk]
  | cons q rest ih =>
    rcases List.pairwise_cons.mp h with ⟨hq, hrest⟩
    by_cases hle : p.1 ≤ q.1
    · simp only [insertDesc, if_pos hle]
      cases hqk : (q.1 == k) <;>
        simp [List.filter_cons, hqk, ih hrest]
    · push_neg at hle
      simp only [insertDesc, if_neg (not_le.mpr hle)]
      by_cases hpk : p.1 = k
      · subst hpk
        have hqk : (q.1 == p.1) = false := by
          simp only [beq_eq_false_iff_ne, ne_eq]
          exact ne_of_lt hle
        have hrk : rest.filter (fun x => x.1 == p.1) = [] := by
          rw [List.filter_eq_nil_iff]
          intro a ha
          have h1 : a.1 ≤ q.1 := hq a ha
          simp only [beq_iff_eq]
          exact ne_of_lt (lt_of_le_of_lt h1 hle)
        simp [List.filter_cons, hqk, hrk]
      · have hpk' : (p.1 == k) = false := by simpa using hpk
        simp [List.filter_cons, hpk']

theorem sortDescAux_perm (l : List (ℚ × Doc)) (acc : List (ℚ × Doc)) :
    List.Perm (l.foldl (fun a x => insertDesc x a) acc) (acc ++ l) := by
  induction l generalizing acc with
  | nil => simp
  | cons p rest ih =>
    have h1 : (p :: rest).foldl (fun a x => insertDesc x a) acc
        = rest.foldl (fun a x => insertDesc x a) (insertDesc p acc) := rfl
    rw [h1]
    have h2 := ih (insertDesc p acc)
    have h3 : List.Perm (insertDesc p acc ++ rest) ((p :: acc) ++ rest) :=
      (insertDesc_perm p acc).append_right rest
    have h4 : List.Perm ((p :: acc) ++ rest) (acc ++ p :: rest) :=
      (@List.perm_middle _ p acc rest).symm
    exact h2.trans (h3.trans h4)

theorem sortDescAux_sorted (l : List (ℚ × Doc)) (acc : List (ℚ × Doc))
    (h : acc.Pairwise (fun a b => b.1 ≤ a.1)) :
    (l.foldl (fun a x => insertDesc x a) acc).Pairwise (fun a b => b.1 ≤ a.1) := by
  induction l generalizing acc with
  | nil => simpa using h
  | cons p rest ih => exact ih _ (insertDesc_sorted p acc h)

theorem sortDescAux_filter (l : List (ℚ × Doc)) (acc : List (ℚ × Doc)) (k : ℚ)
    (h : acc.Pairwise (fun a b => b.1 ≤ a.1)) :
    (l.foldl (fun a x => insertDesc x a) acc).filter (fun q => q.1 == k) =
      acc.filter (fun q => q.1 == k) ++ l.filter (fun q => q.1 == k) := by
  induction l generalizing acc with
  | nil => simp
  | cons p rest ih =>
    have step := ih (insertDesc p acc) (insertDesc_sorted p acc h)
    have h1 : (p :: rest).foldl (fun a x => insertDesc x a) acc
        = rest.foldl (fun a x => insertDesc x a) (insertDesc p acc) := rfl
    rw [h1, step, insertDesc_filter p acc k h]
    cases hpk : (p.1 == k) <;> simp [List.filter_cons, hpk]

/-- The function `sortDesc` returns a permutation of its input. -/
theorem sortDesc_perm (l : List (ℚ × Doc)) : List.Perm (sortDesc l) l := by
  simpa using sortDescAux_perm l []

/-- The function `sortDesc` sorts keys descending. -/
theorem sortDesc_sorted (l : List (ℚ × Doc)) :
    (sortDesc l).Pairwise (fun a b => b.1 ≤ a.1) := by
  exact sortDescAux_sorted l [] (by simp)

/-- Stability: documents of any fixed key keep their original relative
order. -/
theorem sortDesc_stable (l : List (ℚ × Doc)) (k : ℚ) :
    (sortDesc l).filter (fun q => q.1 == k) = l.filter (fun q => q.1 == k) := by
  simpa using sortDescAux_filter l [] k (by simp)

/-! ## Prompt construction (briefing.py lines 259-280) -/

/-- First `n` characters of a string (Python slicing `s[:n]`). -/
def strTake (s : String) (n : Nat) : String := ⟨s.data.take n⟩

/-- Value of `self.max_doc_length` (briefing.py line 16). -/
def maxDocLength : Nat := 8000

/-- The marker appended when a document is cut. -/
def truncationMarker : String := "... [content truncated]"

/-- Truncation `content[:8000] + "... [content truncated]"` of a too-long content. -/
def truncateContent (c : String) : String :=
  if c.length > maxDocLength then strTake c maxDocLength ++ truncationMarker else c

/-- Model of `doc.get('title', '')`. -/
def docTitle (d : Doc) : String := d.title.getD ""

/-- Model of `doc.get('raw_content') or doc.get('content', '')` (first truthy wins). -/
def docContent (d : Doc) : String :=
  match d.raw_content with
  | some r => if r = "" then d.content.getD "" else r
  | none => d.content.getD ""

/-- One prompt entry: `f"Title: \x7btitle\x7d\n\nContent: \x7bcontent\x7d"`
with the content truncated. -/
def docEntry (d : Doc) : String :=
  "Title: " ++ docTitle d ++ "\n\nContent: " ++ truncateContent (docContent d)

/-- The total-size budget on the concatenated entries (briefing.py line 267). -/
def totalBudget : Nat := 120000

/-- The `for _, doc in sorted_items:` loop accumulating `doc_texts`:
append entries while `total_length + len(doc_entry) < 120000`, `break`
(discarding that and all later documents) as soon as one would reach the
budget. -/
def buildDocTexts : List Doc → Nat → List String
  | [], _ => []
  | d :: rest, total =>
    let e := docEntry d
    if total + e.length < totalBudget then e :: buildDocTexts rest (total + e.length)
    else []

/-- The separator `"\n" + "-" * 40 + "\n"`. -/
def promptSeparator : String := "\n" ++ String.mk (List.replicate 40 '-') ++ "\n"

/-- The document portion of the final prompt (the stage-specific prompt
header textual content is out of scope per the spec). -/
def promptBody (sd : List Doc) : String :=
  promptSeparator ++ String.intercalate promptSeparator (buildDocTexts sd 0) ++ promptSeparator

/-! ### Characterization of the budget loop -/

theorem buildDocTexts_take (ds : List Doc) (t : Nat) :
    buildDocTexts ds t = (ds.map docEntry).take (buildDocTexts ds t).length := by
  induction ds generalizing t with
  | nil => simp [buildDocTexts]
  | cons d rest ih =>
    by_cases h : t + (docEntry d).length < totalBudget
    · simp only [buildDocTexts, if_pos h, List.map_cons, List.length_cons, List.take_succ_cons]
      exact congrArg (docEntry d :: ·) (ih _)
    · simp [buildDocTexts, if_neg h]

theorem buildDocTexts_budget (ds : List Doc) (t : Nat) :
    buildDocTexts ds t ≠ [] →
      t + ((buildDocTexts ds t).map String.length).sum < totalBudget := by
  induction ds generalizing t with
  | nil => simp [buildDocTexts]
  | cons d rest ih =>
    by_cases h : t + (docEntry d).length < totalBudget
    · intro _
      simp only [buildDocTexts, if_pos h, List.map_cons, List.sum_cons]
      by_cases hrest : buildDocTexts rest (t + (docEntry d).length) = []
      · simpa [hrest] using h
      · have := ih (t + (docEntry d).length) hrest
        omega
    · intro hne
      exact absurd (by simp [buildDocTexts, if_neg h]) hne

theorem buildDocTexts_cut (ds : List Doc) (t : Nat) (d : Doc) (rest2 : List Doc)
    (h : ds.drop (buildDocTexts ds t).length = d :: rest2) :
    t + ((buildDocTexts ds t).map String.length).sum + (docEntry d).length
      ≥ totalBudget := by
  induction ds generalizing t with
  | nil => simp [buildDocTexts] at h
  | cons d0 rest ih =>
    by_cases hb : t + (docEntry d0).length < totalBudget
    · simp only [buildDocTexts, if_pos hb, List.length_cons, List.drop_succ_cons,
        List.map_cons, List.sum_cons] at h ⊢
      have := ih (t + (docEntry d0).length) h
      omega
    · simp only [buildDocTexts, if_neg hb, List.length_nil, List.drop_zero] at h ⊢
      rcases h with ⟨rfl, rfl⟩
      simp only [List.map_nil, List.sum_nil, Nat.add_zero]
      omega

/-- The truncated content of every entry stays within the per-document cap
plus the marker. -/
theorem truncateContent_length (c : String) :
    (truncateContent c).length ≤ maxDocLength + truncationMarker.length := by
  unfold truncateContent
  by_cases h : c.length > maxDocLength
  · rw [if_pos h]
    have h1 : (strTake c maxDocLength).length ≤ maxDocLength := by
      simp only [strTake, String.length]
      exact List.length_take_le maxDocLength c.data
    calc (strTake c maxDocLength ++ truncationMarker).length
        = (strTake c maxDocLength).length + truncationMarker.length := by
          simp [String.length_append]
      _ ≤ maxDocLength + truncationMarker.length := by omega
  · rw [if_neg h]
    push_neg at h
    omega

/-- A long content is cut at exactly `max_doc_length` characters and the
marker is appended. -/
theorem truncateContent_long (c : String) (h : c.length > maxDocLength) :
    truncateContent c = strTake c maxDocLength ++ truncationMarker ∧
      (strTake c maxDocLength).length = maxDocLength := by
  constructor
  · simp [truncateContent, if_pos h]
  · simp only [strTake, String.length] at h ⊢
    simpa using Nat.min_eq_left (le_of_lt h)

/-! ## The briefing stage (briefing.py lines 25-306 and 308-402)

Stateful/async code is modelled by explicit state passing.  Observable side
effects (WebSocket status events, calls to the Gemini generation service)
are recorded in an `Action` trace.  The generation service is an external
collaborator and enters the model as an oracle mapping the prompt body to
its outcome. -/

/-- An observable action of the briefing stage. -/
inductive Action
  /-- An event `websocket_manager.send_status_update(status=..., category in result)`. -/
  | event (status : String) (category : String)
  /-- A call `self.gemini_model.generate_content(prompt)` for a category. -/
  | genCall (category : String)
deriving DecidableEq

/-- Outcome of one call to the generation service: it may raise, or return
text (possibly empty after stripping). -/
inductive GenOutcome
  | raise (msg : String)
  | ok (text : String)

/-- Python `str.strip()`. -/
def pyStrip (s : String) : String := ⟨pyTrimChars s.data⟩

/-- Result of `generate_category_briefing`: the recorded action trace and
either the returned `\x7b'content': ...\x7d` value or an uncaught exception. -/
structure GCBOut where
  trace : List Action
  result : Except String String

/-- Model of `generate_category_briefing(docs, category, context)`.

`hasWs` tells whether both a websocket manager and a job id are in the
context.  The `briefing_start` event precedes everything; an exception from
the score sort (which sits outside the `try`) propagates; an exception from
the generation call is caught and becomes `\x7b'content': ''\x7d`; the
`briefing_complete` event is sent only after a non-empty stripped result. -/
def generateCategoryBriefing (docs : List Doc) (cat : String) (hasWs : Bool)
    (gen : String → GenOutcome) : GCBOut :=
  let startEvs := if hasWs then [Action.event "briefing_start" cat] else []
  match sortedDocs docs with
  | .error e => ⟨startEvs, .error e⟩
  | .ok sd =>
    match gen (promptBody sd) with
    | .raise _m => ⟨startEvs ++ [Action.genCall cat], .ok ""⟩
    | .ok t =>
      let content := pyStrip t
      if content = "" then ⟨startEvs ++ [Action.genCall cat], .ok ""⟩
      else
        ⟨startEvs ++ [Action.genCall cat] ++
            (if hasWs then [Action.event "briefing_complete" cat] else []),
          .ok content⟩

/-- The category table of `create_briefings` (briefing.py lines 333-338),
in Python dict insertion order: `(data_field, category, briefing_key)`. -/
def categories : List (String × String × String) :=
  [("financial_data", "financial", "financial_briefing"),
   ("news_data", "news", "news_briefing"),
   ("industry_data", "industry", "industry_briefing"),
   ("company_data", "company", "company_briefing")]

/-- One entry of `briefing_tasks`. -/
structure BTask where
  cat : String
  bkey : String
  docs : List Doc
deriving DecidableEq

/-- The `if curated_data:` test of the task-creation loop: a task is made
exactly when `state.get(curated_key, \x7b\x7d)` is truthy (present and
non-empty). -/
def taskOf (curated : String → Option (List Doc)) (c : String × String × String) :
    Option BTask :=
  match curated ("curated_" ++ c.1) with
  | some ds => if ds = [] then none else some ⟨c.2.1, c.2.2, ds⟩
  | none => none

/-- Point update of the briefing-key part of the shared state. -/
def upd (f : String → Option String) (k : String) (v : String) :
    String → Option String :=
  fun x => if x = k then some v else f x

/-- The task-creation loop (briefing.py lines 344-360): skipped categories
get their briefing key set to `""` at once; the others become tasks. -/
def phase1Step (curated : String → Option (List Doc))
    (acc : (String → Option String) × List BTask) (c : String × String × String) :
    (String → Option String) × List BTask :=
  match taskOf curated c with
  | some t => (acc.1, acc.2 ++ [t])
  | none => (upd acc.1 c.2.2 "", acc.2)

/-- State writes and task list after the task-creation loop. -/
def phase1 (curated : String → Option (List Doc)) :
    (String → Option String) × List BTask :=
  categories.foldl (phase1Step curated) (fun _ => none, [])

/-- Result of `create_briefings`: the briefing-key writes to the shared
state, the aggregate `briefings` mapping, the recorded trace, and the
uncaught exception if the stage raised. -/
structure CBOut where
  bstate : String → Option String
  briefings : List (String × String)
  trace : List Action
  err : Option String

/-- The inner `process_briefing` applied to each task in turn (the deterministic
sequential projection of the rate-limited `asyncio.gather`; per-task results
and state writes do not depend on the interleaving).  An uncaught exception
from a task propagates out of the stage and stops it. -/
def runTasks (gen : String → String → GenOutcome) (hasWs : Bool) :
    List BTask → (String → Option String) → List (String × String) → List Action → CBOut
  | [], st, br, tr => ⟨st, br, tr, none⟩
  | t :: rest, st, br, tr =>
    let out := generateCategoryBriefing t.docs t.cat hasWs (gen t.cat)
    match out.result with
    | .error e => ⟨st, br, tr ++ out.trace, some e⟩
    | .ok content =>
      if content = "" then runTasks gen hasWs rest (upd st t.bkey "") br (tr ++ out.trace)
      else runTasks gen hasWs rest (upd st t.bkey content)
        (br ++ [(t.cat, content)]) (tr ++ out.trace)

/-- Model of `create_briefings(state)`.  `curated` maps a state key (such as
`"curated_financial_data"`) to the document list stored there (`none` when
the key is absent); `gen` is the per-category generation oracle. -/
def createBriefings (curated : String → Option (List Doc)) (hasWs : Bool)
    (gen : String → String → GenOutcome) : CBOut :=
  let startTrace := if hasWs then [Action.event "processing" ""] else []
  let p := phase1 curated
  runTasks gen hasWs p.2 p.1 [] startTrace

/-- Canonical content produced for a task: empty on a raised generation
call, the stripped text otherwise. -/
def genResultContent (g : GenOutcome) : String :=
  match g with
  | .raise _ => ""
  | .ok t => pyStrip t

/-- The content a task's briefing key receives (meaningful when its score
sort succeeds). -/
def taskContent (gen : String → String → GenOutcome) (t : BTask) : String :=
  match sortedDocs t.docs with
  | .ok sd => genResultContent (gen t.cat (promptBody sd))
  | .error _ => ""

/-! ### Lemmas about the briefing stage -/

theorem gcb_result_ok (docs : List Doc) (cat : String) (hasWs : Bool)
    (g : String → GenOutcome) (sd : List Doc) (hsd : sortedDocs docs = .ok sd) :
    (generateCategoryBriefing docs cat hasWs g).result
      = .ok (genResultContent (g (promptBody sd))) := by
  unfold generateCategoryBriefing
  rw [hsd]
  cases hg : g (promptBody sd) with
  | raise m => simp [genResultContent, hg]
  | ok t =>
    by_cases ht : pyStrip t = ""
    · simp [genResultContent, hg, ht]
    · simp [genResultContent, hg, ht]

theorem gcb_genCall_cat (docs : List Doc) (cat : String) (hasWs : Bool)
    (g : String → GenOutcome) (c : String)
    (h : Action.genCall c ∈ (generateCategoryBriefing docs cat hasWs g).trace) :
    c = cat := by
  simp only [generateCategoryBriefing] at h
  split at h
  · cases hasWs <;> simp_all
  · split at h
    · cases hasWs <;> simp_all
    · split at h
      · cases hasWs <;> simp_all
      · cases hasWs <;> simp_all

theorem runTasks_preserve (gen : String → String → GenOutcome) (hasWs : Bool)
    (tasks : List BTask) (st : String → Option String)
    (br : List (String × String)) (tr : List Action) (k : String)
    (hk : k ∉ tasks.map BTask.bkey) :
    (runTasks gen hasWs tasks st br tr).bstate k = st k := by
  induction tasks generalizing st br tr with
  | nil => rfl
  | cons t rest ih =>
    simp only [List.map_cons, List.mem_cons, not_or] at hk
    obtain ⟨hk1, hk2⟩ := hk
    simp only [runTasks]
    cases hres : (generateCategoryBriefing t.docs t.cat hasWs (gen t.cat)).result with
    | error e => rfl
    | ok content =>
      by_cases hc : content = ""
      · simp only [if_pos hc]
        rw [ih _ _ _ hk2]
        simp [upd, hk1]
      · simp only [if_neg hc]
        rw [ih _ _ _ hk2]
        simp [upd, hk1]

theorem runTasks_genCall (gen : String → String → GenOutcome) (hasWs : Bool)
    (tasks : List BTask) (st : String → Option String)
    (br : List (String × String)) (tr : List Action) (c : String)
    (h : Action.genCall c ∈ (runTasks gen hasWs tasks st br tr).trace) :
    Action.genCall c ∈ tr ∨ ∃ t ∈ tasks, t.cat = c := by
  induction tasks generalizing st br tr with
  | nil =>
    left
    simpa [runTasks] using h
  | cons t rest ih =>
    have step : ∀ st' br',
        Action.genCall c ∈ (runTasks gen hasWs rest st' br'
            (tr ++ (generateCategoryBriefing t.docs t.cat hasWs (gen t.cat)).trace)).trace →
        Action.genCall c ∈ tr ∨ ∃ x ∈ t :: rest, x.cat = c := by
      intro st' br' hmem
      rcases ih st' br' _ hmem with hmem2 | ⟨x, hx, hcx⟩
      · rcases List.mem_append.mp hmem2 with h1 | h2
        · exact Or.inl h1
        · have := gcb_genCall_cat _ _ _ _ _ h2
          exact Or.inr ⟨t, List.mem_cons_self t rest, this.symm⟩
      · exact Or.inr ⟨x, List.mem_cons_of_mem t hx, hcx⟩
    simp only [runTasks] at h
    split at h
    · simp only [List.mem_append] at h
      rcases h with h | h
      · exact Or.inl h
      · have := gcb_genCall_cat _ _ _ _ _ h
        exact Or.inr ⟨t, List.mem_cons_self t rest, this.symm⟩
    · split at h
      · exact step _ _ h
      · exact step _ _ h

theorem runTasks_spec (gen : String → String → GenOutcome) (hasWs : Bool)
    (tasks : List BTask) (st : String → Option String)
    (br : List (String × String)) (tr : List Action)
    (hsort : ∀ t ∈ tasks, ∃ sd, sortedDocs t.docs = .ok sd)
    (hnodup : (tasks.map BTask.bkey).Nodup) :
    (runTasks gen hasWs tasks st br tr).err = none ∧
    (runTasks gen hasWs tasks st br tr).briefings
      = br ++ tasks.filterMap (fun t =>
          if taskContent gen t = "" then none else some (t.cat, taskContent gen t)) ∧
    ∀ t ∈ tasks, (runTasks gen hasWs tasks st br tr).bstate t.bkey
      = some (taskContent gen t) := by
  induction tasks generalizing st br tr with
  | nil => simp [runTasks]
  | cons t rest ih =>
    obtain ⟨sd, hsd⟩ := hsort t (List.mem_cons_self t rest)
    have hres := gcb_result_ok t.docs t.cat hasWs (gen t.cat) sd hsd
    have htc : taskContent gen t = genResultContent (gen t.cat (promptBody sd)) := by
      simp [taskContent, hsd]
    simp only [List.map_cons, List.nodup_cons] at hnodup
    obtain ⟨hk1, hk2⟩ := hnodup
    have hsort2 : ∀ x ∈ rest, ∃ sd2, sortedDocs x.docs = .ok sd2 :=
      fun x hx => hsort x (List.mem_cons_of_mem t hx)
    simp only [runTasks, hres]
    by_cases hc : genResultContent (gen t.cat (promptBody sd)) = ""
    · rw [if_pos hc]
      obtain ⟨ha, hb, hcst⟩ := ih (upd st t.bkey "") br
        (tr ++ (generateCategoryBriefing t.docs t.cat hasWs (gen t.cat)).trace) hsort2 hk2
      refine ⟨ha, ?_, ?_⟩
      · rw [hb]
        simp [List.filterMap_cons, htc, hc]
      · intro x hx
        rcases List.mem_cons.mp hx with rfl | hx2
        · rw [runTasks_preserve gen hasWs rest _ _ _ _ hk1]
          simp [upd, htc, hc]
        · exact hcst x hx2
    · rw [if_neg hc]
      obtain ⟨ha, hb, hcst⟩ := ih (upd st t.bkey (genResultContent (gen t.cat (promptBody sd))))
        (br ++ [(t.cat, genResultContent (gen t.cat (promptBody sd)))])
        (tr ++ (generateCategoryBriefing t.docs t.cat hasWs (gen t.cat)).trace) hsort2 hk2
      refine ⟨ha, ?_, ?_⟩
      · rw [hb]
        simp [List.filterMap_cons, htc, hc]
      · intro x hx
        rcases List.mem_cons.mp hx with rfl | hx2
        · rw [runTasks_preserve gen hasWs rest _ _ _ _ hk1]
          simp [upd, htc, hc]
        · exact hcst x hx2

/-! ### Lemmas about the task-creation loop -/

theorem taskOf_fields (curated : String → Option (List Doc))
    (c : String × String × String) (t : BTask) (h : taskOf curated c = some t) :
    t.cat = c.2.1 ∧ t.bkey = c.2.2 ∧ ∃ ds, curated ("curated_" ++ c.1) = some ds ∧
      ds ≠ [] ∧ t.docs = ds := by
  simp only [taskOf] at h
  split at h
  next ds heq =>
    split at h
    next hds => exact absurd h (by simp)
    next hds =>
      obtain rfl := Option.some_injective _ h
      exact ⟨rfl, rfl, ds, heq, hds, rfl⟩
  next heq => exact absurd h (by simp)

theorem phase1_tasks_aux (curated : String → Option (List Doc))
    (cs : List (String × String × String))
    (acc : (String → Option String) × List BTask) :
    (cs.foldl (phase1Step curated) acc).2 = acc.2 ++ cs.filterMap (taskOf curated) := by
  induction cs generalizing acc with
  | nil => simp
  | cons c rest ih =>
    simp only [List.foldl_cons, List.filterMap_cons]
    cases hc : taskOf curated c with
    | none => simp only [phase1Step, hc]; rw [ih]
    | some t => simp only [phase1Step, hc]; rw [ih]; simp

theorem phase1_state_aux (curated : String → Option (List Doc))
    (cs : List (String × String × String))
    (acc : (String → Option String) × List BTask) (k : String) :
    (cs.foldl (phase1Step curated) acc).1 k
      = if cs.any (fun c => c.2.2 == k && (taskOf curated c).isNone)
        then some "" else acc.1 k := by
  induction cs generalizing acc with
  | nil => simp
  | cons c rest ih =>
    simp only [List.foldl_cons, List.any_cons, phase1Step]
    split
    next t heq =>
      rw [ih]
      simp only [heq, Option.isNone_some, Bool.and_false, Bool.false_or]
    next heq =>
      rw [ih]
      simp only [heq, Option.isNone_none, Bool.and_true]
      by_cases hk : c.2.2 = k
      · subst hk
        simp [upd]
      · have hbeq : (c.2.2 == k) = false := by simpa using hk
        have hupd : upd acc.1 c.2.2 "" k = acc.1 k := by
          simp only [upd, if_neg (Ne.symm hk)]
        rw [hupd, hbeq]
        simp only [Bool.false_or]

theorem phase1_tasks (curated : String → Option (List Doc)) :
    (phase1 curated).2 = categories.filterMap (taskOf curated) := by
  simpa using phase1_tasks_aux curated categories (fun _ => none, [])

theorem phase1_state (curated : String → Option (List Doc)) (k : String) :
    (phase1 curated).1 k
      = if categories.any (fun c => c.2.2 == k && (taskOf curated c).isNone)
        then some "" else none := by
  simpa using phase1_state_aux curated categories (fun _ => none, []) k

theorem filterMap_taskOf_bkey_sublist (curated : String → Option (List Doc))
    (cs : List (String × String × String)) :
    ((cs.filterMap (taskOf curated)).map BTask.bkey).Sublist
      (cs.map (fun c => c.2.2)) := by
  induction cs with
  | nil => simp
  | cons c rest ih =>
    simp only [List.filterMap_cons, List.map_cons]
    cases hc : taskOf curated c with
    | none => exact ih.cons _
    | some t =>
      simp only [List.map_cons]
      rw [(taskOf_fields curated c t hc).2.1]
      exact ih.cons₂ _

/-- bkeys of the four categories are pairwise distinct. -/
theorem categories_bkey_nodup : (categories.map (fun c => c.2.2)).Nodup := by
  decide

/-- A category entry is determined by its briefing key. -/
theorem categories_bkey_inj : ∀ c1 ∈ categories, ∀ c2 ∈ categories,
    c1.2.2 = c2.2.2 → c1 = c2 := by
  decide

/-- A category entry is determined by its category name. -/
theorem categories_cat_inj : ∀ c1 ∈ categories, ∀ c2 ∈ categories,
    c1.2.1 = c2.2.1 → c1 = c2 := by
  decide

theorem phase1_tasks_bkey_nodup (curated : String → Option (List Doc)) :
    ((phase1 curated).2.map BTask.bkey).Nodup := by
  rw [phase1_tasks]
  exact categories_bkey_nodup.sublist (filterMap_taskOf_bkey_sublist curated categories)

/-! ## The rate-limiting semaphore (briefing.py lines 363-394)

`create_briefings` guards every `process_briefing` task with
`asyncio.Semaphore(2)` via `async with`, which acquires a permit before the
generation call and releases it on every exit path (normal return or
exception).  The cooperative scheduler is modelled as a transition system:
a task is `pending` before `acquire`, `inside` while holding a permit, and
`done` after release; `finish` covers both the success and the failure exit
of the `async with` block. -/

/-- Scheduling phase of one `process_briefing` task. -/
inductive TaskPhase
  | pending
  | inside
  | done
deriving DecidableEq

/-- Scheduler state: available permits of the semaphore plus each task's
phase. -/
structure SemState where
  permits : Nat
  tasks : List TaskPhase
deriving DecidableEq

/-- Number of tasks currently inside the semaphore-guarded section. -/
def countInside (ts : List TaskPhase) : Nat :=
  ts.countP (fun t => t == TaskPhase.inside)

/-- One scheduler step.  `acquire` admits a pending task only when a permit
is available (`asyncio.Semaphore.acquire` suspends otherwise); `finish`
covers every exit of the `async with` block — normal completion or an
exception escaping the task — and always returns the permit. -/
inductive SemStep : SemState → SemState → Prop
  | acquire (s : SemState) (i : Nat) (h : s.tasks.get? i = some TaskPhase.pending)
      (hp : 0 < s.permits) :
      SemStep s ⟨s.permits - 1, s.tasks.set i TaskPhase.inside⟩
  | finish (s : SemState) (i : Nat) (h : s.tasks.get? i = some TaskPhase.inside) :
      SemStep s ⟨s.permits + 1, s.tasks.set i TaskPhase.done⟩

/-- Initial state of one `create_briefings` fan-out:
`asyncio.Semaphore(2)` and `n` not-yet-admitted tasks. -/
def semInit (n : Nat) : SemState := ⟨2, List.replicate n TaskPhase.pending⟩

/-- States reachable during the fan-out. -/
def SemReachable (n : Nat) (s : SemState) : Prop :=
  Relation.ReflTransGen SemStep (semInit n) s

theorem countP_set (p : TaskPhase → Bool) (l : List TaskPhase) (i : Nat)
    (a b : TaskPhase) (h : l.get? i = some b) :
    (l.set i a).countP p + (if p b then 1 else 0)
      = l.countP p + (if p a then 1 else 0) := by
  induction l generalizing i with
  | nil => simp at h
  | cons x xs ih =>
    cases i with
    | zero =>
      obtain rfl := Option.some_injective _ h
      simp only [List.set_cons_zero, List.countP_cons]
      omega
    | succ j =>
      simp only [List.get?_cons_succ] at h
      simp only [List.set_cons_succ, List.countP_cons]
      have := ih j h
      omega

/-- The semaphore accounting invariant: permits plus holders is the
capacity. -/
theorem semStep_invariant (s s2 : SemState) (hstep : SemStep s s2)
    (hinv : s.permits + countInside s.tasks = 2) :
    s2.permits + countInside s2.tasks = 2 := by
  cases hstep with
  | acquire i h hp =>
    have hc := countP_set (fun t => t == TaskPhase.inside) s.tasks i
      TaskPhase.inside TaskPhase.pending h
    simp only [countInside] at hinv ⊢
    simp only [beq_iff_eq, reduceCtorEq] at hc
    simp only [if_true, if_false, reduceIte] at hc
    omega
  | finish i h =>
    have hc := countP_set (fun t => t == TaskPhase.inside) s.tasks i
      TaskPhase.done TaskPhase.inside h
    simp only [countInside] at hinv ⊢
    simp only [beq_iff_eq, reduceCtorEq] at hc
    simp only [if_true, if_false, reduceIte] at hc
    omega

theorem semReachable_invariant (n : Nat) (s : SemState) (h : SemReachable n s) :
    s.permits + countInside s.tasks = 2 := by
  induction h with
  | refl =>
    simp only [semInit, countInside]
    have : (List.replicate n TaskPhase.pending).countP
        (fun t => t == TaskPhase.inside) = 0 := by
      induction n with
      | zero => rfl
      | succ m ihm => simp [List.replicate, List.countP_cons, ihm]
    omega
  | tail _hsteps hstep ih => exact semStep_invariant _ _ hstep ih

/-! ## The job supervisor (application.py lines 57-65, 115-183, 194-208)

`process_research` is modelled in the deployment without the optional
persistence collaborator (`mongodb = None`; spec section 6 requires its
absence not to change the pipeline).  WebSocket sends are modelled as an
emitted event list; wall-clock timestamps (`last_update`) and the
`debug_info` list are outside of the model. -/

/-- The nested `state['editor']` mapping. -/
structure EditorState where
  report : Option String := none
deriving DecidableEq

/-- The final accumulated workflow state, restricted to the keys
`process_research` reads. -/
structure FState where
  report : Option String := none
  editor : Option EditorState := none
  error : Option String := none
deriving DecidableEq

/-- Truthiness of an optional string: Python treats a missing key, `None`
and `""` alike as falsy. -/
def truthyStr : Option String → Option String
  | some s => if s = "" then none else some s
  | none => none

/-- Model of `(state.get('editor') or \x7b\x7d).get('report')` for the fallback. -/
def editorReport (st : FState) : Option String :=
  match st.editor with
  | some ed => ed.report
  | none => none

/-- Model of `state.get('report') or (state.get('editor') or \x7b\x7d).get('report')`:
the report used by the supervisor, `none` when neither location holds a
non-empty text. -/
def reportContent (st : FState) : Option String :=
  match truthyStr st.report with
  | some r => some r
  | none => truthyStr (editorReport st)

/-- A StatusEvent as delivered by `WebSocketManager.send_status_update`.
`result` is the `\x7b'report': ..., 'company': ...\x7d` payload. -/
structure StatusEventM where
  status : String
  message : String
  result : Option (String × String) := none
  error : Option String := none
deriving DecidableEq

/-- One entry of the in-memory `job_status` defaultdict (timestamps and
`debug_info` omitted). The field defaults are the defaultdict's factory
values. -/
structure JobRecord where
  status : String := "pending"
  result : Option (String × String) := none
  error : Option String := none
  company : Option String := none
  report : Option String := none
deriving DecidableEq

/-- Reading `job_status[job_id]` when the entry may be missing: the
defaultdict factory supplies the `"pending"` record. -/
def storeLookup (entry : Option JobRecord) : JobRecord :=
  entry.getD {}

/-- Modelled from the spec: `backend/graph.py` (the PipelineEngine) is not
part of the sources under scrutiny.  Per spec section 4.1 its `run` lazily
yields partial state updates while emitting stage-specific StatusEvents
(such as `processing`, `briefing_start`, `briefing_complete` — the tags the
in-source briefing stage emits), and it may raise out of a stage.  A run is
summarised by the stage events it emitted together with either the final
accumulated state or the exception message. -/
inductive GraphOutcome
  | ok (stageEvents : List StatusEventM) (final : FState)
  | raise (stageEvents : List StatusEventM) (msg : String)

/-- The stage events a run emitted before finishing or raising. -/
def GraphOutcome.events : GraphOutcome → List StatusEventM
  | .ok evs _ => evs
  | .raise evs _ => evs

/-- The event of `await manager.send_status_update(job_id,
status="processing", message="Starting research")`. -/
def processingEv : StatusEventM :=
  ⟨"processing", "Starting research", none, none⟩

/-- Terminal message of the soft-failure path (line 170). -/
def softFailMessage : String := "Research completed but no report was generated"

/-- Terminal message of the hard-failure path (line 179). -/
def hardFailMessage (e : String) : String := "Research failed: " ++ e

/-- The `error_message` of the soft-failure path (lines 163-165):
`if error := state.get('error'):` is a Python truthiness test, so an
absent key and a present-but-empty error string alike keep the default
`"No report found"`. -/
def softFailError (st : FState) : String :=
  match truthyStr st.error with
  | some e => "Error: " ++ e
  | none => "No report found"

/-- The branch of `process_research` after `graph.run` finished without
raising (application.py lines 136-172). -/
def processResearchOk (company : String) (evs : List StatusEventM) (st : FState) :
    List StatusEventM × Option JobRecord :=
  match reportContent st with
  | some rpt =>
    (processingEv :: evs ++
        [⟨"completed", "Research completed successfully", some (rpt, company), none⟩],
      some { status := "completed", report := some rpt, company := some company })
  | none =>
    (processingEv :: evs ++
        [⟨"failed", softFailMessage, none, some (softFailError st)⟩],
      none)

/-- Model of `process_research(job_id, data)` for one job: the ordered list of
StatusEvents it sends for its `job_id` and the job's `job_status` entry
after the run (`none` when the run never touched the store). -/
def processResearch : String → GraphOutcome → List StatusEventM × Option JobRecord
  | _company, .raise evs msg =>
    (processingEv :: evs ++ [⟨"failed", hardFailMessage msg, none, some msg⟩], none)
  | company, .ok evs st => processResearchOk company evs st

/-- The synthetic catch-up event of `websocket_endpoint` (lines 200-208):
sent only when `job_id in job_status`, echoing the stored status, error and
result. -/
def catchUpEvent (entry : Option JobRecord) : Option StatusEventM :=
  match entry with
  | some r => some ⟨r.status, "Connected to status stream", r.result, r.error⟩
  | none => none

/-- The soft-failure message is not a hard-failure message, whatever the
exception text. -/
theorem softFail_ne_hardFail (e : String) :
    softFailMessage ≠ hardFailMessage e := by
  intro h
  have hdata : softFailMessage.data = (hardFailMessage e).data := congrArg String.data h
  have happ : (hardFailMessage e).data = "Research failed: ".data ++ e.data := rfl
  rw [happ] at hdata
  have htake := congrArg (List.take 17) hdata
  rw [List.take_append_of_le_length (by decide)] at htake
  revert htake
  decide

/-! ## Claim theorems -/

/-- A document carrying a non-numeric `evaluation.overall_score`. -/
def badScoreDoc : Doc := { overall_score := some (.str "not a number") }

theorem computeKeys_ok (docs : List Doc)
    (h : ∀ d ∈ docs, ∃ q, scoreKey d = .ok q) :
    ∃ kl, computeKeys docs = .ok kl := by
  induction docs with
  | nil => exact ⟨[], rfl⟩
  | cons d ds ih =>
    obtain ⟨q, hq⟩ := h d (List.mem_cons_self d ds)
    obtain ⟨kl, hkl⟩ := ih (fun x hx => h x (List.mem_cons_of_mem d hx))
    refine ⟨(q, d) :: kl, ?_⟩
    simp only [computeKeys] at hkl ⊢
    rw [List.mapM_cons, hq, hkl]
    rfl

/-- C2 (counterexample): the claim "a document whose score is non-numeric
is treated as score 0 rather than failing the stage" is false on the code:
`float('not a number')` raises `ValueError` inside the `sorted(...)` key,
which sits outside the `try` block, so the sort raises. -/
theorem sortedDocs_nonNumeric_raises :
    sortedDocs [badScoreDoc] = .error "ValueError" := by
  rfl

/-- C2 (amended): sorting the batch by `evaluation.overall_score` never
raises when every document's score is absent or parses as a float — an
absent score is treated as `float('0') = 0` — but a non-numeric score makes
`float()` raise and the exception escapes the sort. -/
theorem sortedDocs_wellformed_ok (docs : List Doc)
    (h : ∀ d ∈ docs, ∃ q, scoreKey d = .ok q) :
    (∃ l, sortedDocs docs = .ok l) ∧
    (∀ d ∈ docs, d.overall_score = none → scoreKey d = .ok 0) := by
  constructor
  · obtain ⟨kl, hkl⟩ := computeKeys_ok docs h
    refine ⟨(sortDesc kl).map Prod.snd, ?_⟩
    unfold sortedDocs
    rw [hkl]
    rfl
  · intro d _ hd
    simp only [scoreKey, hd, Option.getD]
    rfl

/-- An absent-score document (every field missing). -/
def plainDoc : Doc := {}

/-- A document scored 5. -/
def scoredDoc5 : Doc := { overall_score := some (.num 5) }

theorem scoreKey_plainDoc : scoreKey plainDoc = .ok 0 := by rfl

theorem scoreKey_scoredDoc5 : scoreKey scoredDoc5 = .ok 5 := by rfl

/-- C2 witness: a batch of an absent-score and a numeric-score document
satisfies the hypothesis and sorts without raising. -/
theorem sortedDocs_wellformed_ok_witness :
    (∀ d ∈ [plainDoc, scoredDoc5], ∃ q, scoreKey d = .ok q) ∧
    (∃ l, sortedDocs [plainDoc, scoredDoc5] = .ok l) := by
  have hyp : ∀ d ∈ [plainDoc, scoredDoc5], ∃ q, scoreKey d = .ok q := by
    intro d hd
    rcases List.mem_cons.mp hd with rfl | hd2
    · exact ⟨0, scoreKey_plainDoc⟩
    · rcases List.mem_cons.mp hd2 with rfl | hd3
      · exact ⟨5, scoreKey_scoredDoc5⟩
      · simp at hd3
  exact ⟨hyp, (sortedDocs_wellformed_ok [plainDoc, scoredDoc5] hyp).1⟩

/-- C3: the prompt body over a batch whose keys all compute is built from
the stable descending sort of the documents: the emitted `doc_texts` list
is a prefix of the per-document `Title/Content` entries in sorted order,
its total size stays under the 120000 budget, the first excluded document
(if any) is exactly the one whose entry would reach the budget, every
entry's content is truncated to at most 8000 characters plus the marker,
and an over-long content is cut at 8000 characters with the marker
appended. -/
theorem briefing_prompt_construction (docs : List Doc) (kl : List (ℚ × Doc))
    (hk : computeKeys docs = .ok kl) :
    sortedDocs docs = .ok ((sortDesc kl).map Prod.snd) ∧
    (sortDesc kl).Pairwise (fun a b => b.1 ≤ a.1) ∧
    (∀ q, (sortDesc kl).filter (fun p => p.1 == q) = kl.filter (fun p => p.1 == q)) ∧
    List.Perm (sortDesc kl) kl ∧
    (buildDocTexts ((sortDesc kl).map Prod.snd) 0
      = (((sortDesc kl).map Prod.snd).map docEntry).take
          (buildDocTexts ((sortDesc kl).map Prod.snd) 0).length) ∧
    ((buildDocTexts ((sortDesc kl).map Prod.snd) 0).map String.length).sum
        < totalBudget ∧
    (∀ d rest2, ((sortDesc kl).map Prod.snd).drop
          (buildDocTexts ((sortDesc kl).map Prod.snd) 0).length = d :: rest2 →
        ((buildDocTexts ((sortDesc kl).map Prod.snd) 0).map String.length).sum
            + (docEntry d).length ≥ totalBudget) ∧
    (∀ d : Doc, docEntry d
      = "Title: " ++ docTitle d ++ "\n\nContent: " ++ truncateContent (docContent d)) ∧
    (∀ c : String, (truncateContent c).length ≤ maxDocLength + truncationMarker.length) ∧
    (∀ c : String, c.length > maxDocLength →
      truncateContent c = strTake c maxDocLength ++ truncationMarker ∧
        (strTake c maxDocLength).length = maxDocLength) := by
  refine ⟨by unfold sortedDocs; rw [hk]; rfl, sortDesc_sorted kl, fun q => sortDesc_stable kl q,
    sortDesc_perm kl, buildDocTexts_take _ 0, ?_, ?_, fun d => rfl,
    truncateContent_length, truncateContent_long⟩
  · by_cases hne : buildDocTexts ((sortDesc kl).map Prod.snd) 0 = []
    · rw [hne]
      simp [totalBudget]
    · have := buildDocTexts_budget ((sortDesc kl).map Prod.snd) 0 hne
      omega
  · intro d rest2 hdrop
    have := buildDocTexts_cut ((sortDesc kl).map Prod.snd) 0 d rest2 hdrop
    omega

/-- A low-scored document. -/
def docLow : Doc :=
  { title := some "a", content := some "low", overall_score := some (.num 1) }

/-- A high-scored document. -/
def docHigh : Doc :=
  { title := some "b", content := some "high", overall_score := some (.num 2) }

/-- C3 witness: two concrete scored documents; the higher-scored one sorts
first and both entries fit the budget. -/
theorem briefing_prompt_construction_witness :
    computeKeys [docLow, docHigh] = .ok [(1, docLow), (2, docHigh)] ∧
    sortedDocs [docLow, docHigh] = .ok [docHigh, docLow] := by
  constructor
  · rfl
  · exact (briefing_prompt_construction [docLow, docHigh] [(1, docLow), (2, docHigh)] rfl).1

/-- C4: a category whose curated data key is absent or empty gets its
briefing state key set to `""` during task creation, and the generation
service is never invoked for it (no task is created, hence no `genCall`
for that category appears in the stage's trace). -/
theorem createBriefings_skips_empty_categories
    (curated : String → Option (List Doc)) (hasWs : Bool)
    (gen : String → String → GenOutcome)
    (field cat bkey : String) (hmem : (field, cat, bkey) ∈ categories)
    (hfalsy : curated ("curated_" ++ field) = none ∨
      curated ("curated_" ++ field) = some []) :
    (createBriefings curated hasWs gen).bstate bkey = some "" ∧
    Action.genCall cat ∉ (createBriefings curated hasWs gen).trace := by
  have htask : taskOf curated (field, cat, bkey) = none := by
    rcases hfalsy with h | h <;> simp [taskOf, h]
  have hnokey : bkey ∉ (phase1 curated).2.map BTask.bkey := by
    rw [phase1_tasks]
    intro hmem2
    obtain ⟨t, ht, hbk⟩ := List.mem_map.mp hmem2
    obtain ⟨c2, hc2, hct⟩ := List.mem_filterMap.mp ht
    have hf := taskOf_fields curated c2 t hct
    have hceq : c2 = (field, cat, bkey) :=
      categories_bkey_inj c2 hc2 (field, cat, bkey) hmem (by rw [← hf.2.1, hbk])
    rw [hceq, htask] at hct
    exact absurd hct (by simp)
  constructor
  · simp only [createBriefings]
    rw [runTasks_preserve _ _ _ _ _ _ _ hnokey, phase1_state]
    rw [if_pos]
    rw [List.any_eq_true]
    exact ⟨(field, cat, bkey), hmem, by simp [htask]⟩
  · intro hcall
    simp only [createBriefings] at hcall
    rcases runTasks_genCall _ _ _ _ _ _ _ hcall with hstart | ⟨t, ht, hcat⟩
    · cases hasWs <;> simp_all
    · rw [phase1_tasks] at ht
      obtain ⟨c2, hc2, hct⟩ := List.mem_filterMap.mp ht
      have hf := taskOf_fields curated c2 t hct
      have hceq : c2 = (field, cat, bkey) :=
        categories_cat_inj c2 hc2 (field, cat, bkey) hmem (by rw [← hf.1, hcat])
      rw [hceq, htask] at hct
      exact absurd hct (by simp)

/-- C4 witness: with every curated key empty, the `financial` category is
skipped: its key is written `""` and no generation call happens. -/
theorem createBriefings_skips_empty_categories_witness :
    ("financial_data", "financial", "financial_briefing") ∈ categories ∧
    ((fun _ => (none : Option (List Doc))) ("curated_" ++ "financial_data") = none ∨
      (fun _ => (none : Option (List Doc))) ("curated_" ++ "financial_data") = some []) ∧
    (createBriefings (fun _ => none) true
        (fun _ _ => GenOutcome.ok "text")).bstate "financial_briefing" = some "" ∧
    Action.genCall "financial" ∉
      (createBriefings (fun _ => none) true (fun _ _ => GenOutcome.ok "text")).trace := by
  refine ⟨by decide, Or.inl rfl, ?_⟩
  exact createBriefings_skips_empty_categories (fun _ => none) true
    (fun _ _ => GenOutcome.ok "text") "financial_data" "financial" "financial_briefing"
    (by decide) (Or.inl rfl)

/-- C5: a single category's generation failure is absorbed: with every
supplied batch sortable, the stage never raises, the failing category's
briefing key is set to `""` and it never enters the aggregate `briefings`
mapping, every other category's briefing value is a function of its own
generation outcome alone, and the aggregate mapping carries only non-empty
contents. -/
theorem createBriefings_failure_isolated
    (curated : String → Option (List Doc)) (hasWs : Bool)
    (gen : String → String → GenOutcome)
    (fieldA catA keyA : String) (hmemA : (fieldA, catA, keyA) ∈ categories)
    (docsA : List Doc) (hA : curated ("curated_" ++ fieldA) = some docsA)
    (hAne : docsA ≠ [])
    (hsort : ∀ f c k, (f, c, k) ∈ categories → ∀ ds,
      curated ("curated_" ++ f) = some ds → ∃ sd, sortedDocs ds = .ok sd)
    (hraise : ∀ b, ∃ m, gen catA b = GenOutcome.raise m) :
    (createBriefings curated hasWs gen).err = none ∧
    (createBriefings curated hasWs gen).bstate keyA = some "" ∧
    (∀ f c k, (f, c, k) ∈ categories → ∀ ds, curated ("curated_" ++ f) = some ds →
      ds ≠ [] → (createBriefings curated hasWs gen).bstate k
        = some (taskContent gen ⟨c, k, ds⟩)) ∧
    (∀ v, (catA, v) ∉ (createBriefings curated hasWs gen).briefings) ∧
    (∀ p ∈ (createBriefings curated hasWs gen).briefings, p.2 ≠ "") := by
  have htasksort : ∀ t ∈ (phase1 curated).2, ∃ sd, sortedDocs t.docs = .ok sd := by
    intro t ht
    rw [phase1_tasks] at ht
    obtain ⟨c2, hc2, hct⟩ := List.mem_filterMap.mp ht
    obtain ⟨hcat, hbk, ds, hds, hdsne, hdocs⟩ := taskOf_fields curated c2 t hct
    rw [hdocs]
    obtain ⟨f2, cc2, kk2⟩ := c2
    exact hsort f2 cc2 kk2 hc2 ds hds
  obtain ⟨herr, hbrief, hbst⟩ := runTasks_spec gen hasWs (phase1 curated).2
    (phase1 curated).1 [] (if hasWs then [Action.event "processing" ""] else [])
    htasksort (phase1_tasks_bkey_nodup curated)
  have htaskA : taskOf curated (fieldA, catA, keyA) = some ⟨catA, keyA, docsA⟩ := by
    simp [taskOf, hA, hAne]
  have hmemTaskA : (⟨catA, keyA, docsA⟩ : BTask) ∈ (phase1 curated).2 := by
    rw [phase1_tasks]
    exact List.mem_filterMap.mpr ⟨(fieldA, catA, keyA), hmemA, htaskA⟩
  have htcA : taskContent gen ⟨catA, keyA, docsA⟩ = "" := by
    obtain ⟨sdA, hsdA⟩ := hsort fieldA catA keyA hmemA docsA hA
    obtain ⟨m, hm⟩ := hraise (promptBody sdA)
    simp [taskContent, hsdA, hm, genResultContent]
  have hgen : ∀ f c k, (f, c, k) ∈ categories → ∀ ds,
      curated ("curated_" ++ f) = some ds → ds ≠ [] →
      (createBriefings curated hasWs gen).bstate k
        = some (taskContent gen ⟨c, k, ds⟩) := by
    intro f c k hmem ds hds hdsne
    have htaskC : taskOf curated (f, c, k) = some ⟨c, k, ds⟩ := by
      simp [taskOf, hds, hdsne]
    have hmemT : (⟨c, k, ds⟩ : BTask) ∈ (phase1 curated).2 := by
      rw [phase1_tasks]
      exact List.mem_filterMap.mpr ⟨(f, c, k), hmem, htaskC⟩
    simpa only [createBriefings] using hbst _ hmemT
  refine ⟨by simpa only [createBriefings] using herr, ?_, hgen, ?_, ?_⟩
  · have := hgen fieldA catA keyA hmemA docsA hA hAne
    rw [this, htcA]
  · intro v hv
    simp only [createBriefings] at hv
    rw [hbrief, List.nil_append] at hv
    obtain ⟨t, ht, hsome⟩ := List.mem_filterMap.mp hv
    by_cases htc : taskContent gen t = ""
    · rw [if_pos htc] at hsome
      exact absurd hsome (by simp)
    · rw [if_neg htc] at hsome
      have hpair := Option.some_injective _ hsome
      have hcatt : t.cat = catA := congrArg Prod.fst hpair
      rw [phase1_tasks] at ht
      obtain ⟨c2, hc2, hct⟩ := List.mem_filterMap.mp ht
      obtain ⟨hcat2, hbk2, ds2, hds2, hdsne2, hdocs2⟩ := taskOf_fields curated c2 t hct
      have hceq : c2 = (fieldA, catA, keyA) :=
        categories_cat_inj c2 hc2 (fieldA, catA, keyA) hmemA (by rw [← hcat2, hcatt])
      rw [hceq] at hct
      rw [htaskA] at hct
      obtain rfl := Option.some_injective _ hct
      exact htc htcA
  · intro p hp
    simp only [createBriefings] at hp
    rw [hbrief, List.nil_append] at hp
    obtain ⟨t, _ht, hsome⟩ := List.mem_filterMap.mp hp
    by_cases htc : taskContent gen t = ""
    · rw [if_pos htc] at hsome
      exact absurd hsome (by simp)
    · rw [if_neg htc] at hsome
      have hpair := Option.some_injective _ hsome
      have : p.2 = taskContent gen t := (congrArg Prod.snd hpair).symm
      rw [this]
      exact htc

/-- Curated state for the C5 witness: documents for `financial` and `news`
only. -/
def wCurated : String → Option (List Doc) := fun k =>
  if k = "curated_financial_data" then some [docHigh]
  else if k = "curated_news_data" then some [docLow] else none

/-- Generation oracle for the C5 witness: `financial` raises, everything
else succeeds. -/
def wGen : String → String → GenOutcome := fun c _ =>
  if c = "financial" then .raise "boom" else .ok "B text"

/-- C5 witness: with `financial` forced to fail and `news` succeeding, the
stage does not raise, `financial_briefing` is `""` and `news_briefing`
carries the generated text. -/
theorem createBriefings_failure_isolated_witness :
    (createBriefings wCurated true wGen).err = none ∧
    (createBriefings wCurated true wGen).bstate "financial_briefing" = some "" ∧
    (createBriefings wCurated true wGen).bstate "news_briefing" = some "B text" := by
  have hsort : ∀ f c k, (f, c, k) ∈ categories → ∀ ds,
      wCurated ("curated_" ++ f) = some ds → ∃ sd, sortedDocs ds = .ok sd := by
    intro f c k hmem ds hds
    simp only [categories, List.mem_cons, List.not_mem_nil, or_false,
      Prod.mk.injEq] at hmem
    rcases hmem with ⟨rfl, rfl, rfl⟩ | ⟨rfl, rfl, rfl⟩ | ⟨rfl, rfl, rfl⟩ | ⟨rfl, rfl, rfl⟩
    · rw [show wCurated ("curated_" ++ "financial_data") = some [docHigh] from rfl] at hds
      obtain rfl := Option.some_injective _ hds
      exact ⟨[docHigh], rfl⟩
    · rw [show wCurated ("curated_" ++ "news_data") = some [docLow] from rfl] at hds
      obtain rfl := Option.some_injective _ hds
      exact ⟨[docLow], rfl⟩
    · rw [show wCurated ("curated_" ++ "industry_data") = none from rfl] at hds
      exact absurd hds (by simp)
    · rw [show wCurated ("curated_" ++ "company_data") = none from rfl] at hds
      exact absurd hds (by simp)
  have h := createBriefings_failure_isolated wCurated true wGen
    "financial_data" "financial" "financial_briefing" (by decide)
    [docHigh] rfl (by simp) hsort (fun b => ⟨"boom", rfl⟩)
  refine ⟨h.1, h.2.1, ?_⟩
  have hnews := h.2.2.1 "news_data" "news" "news_briefing" (by decide) [docLow] rfl (by simp)
  rw [hnews]
  rfl

/-- C6: in any state reachable during the fan-out, at most 2 tasks are
inside the semaphore-guarded section, and after any further step — a
normal or failing task exit included — the permit accounting
`permits + holders = 2` is restored. -/
theorem briefing_semaphore_bound (n : Nat) (s : SemState) (h : SemReachable n s) :
    countInside s.tasks ≤ 2 ∧
    ∀ s2, SemStep s s2 → s2.permits + countInside s2.tasks = 2 := by
  have hinv := semReachable_invariant n s h
  exact ⟨by omega, fun s2 hstep => semStep_invariant s s2 hstep hinv⟩

/-- C6 witness: a concrete reachable state of a 3-task fan-out with both
permits taken still has at most 2 holders. -/
theorem briefing_semaphore_bound_witness :
    SemReachable 3 ⟨0, [TaskPhase.inside, TaskPhase.inside, TaskPhase.pending]⟩ ∧
    countInside
      (⟨0, [TaskPhase.inside, TaskPhase.inside, TaskPhase.pending]⟩ : SemState).tasks
      ≤ 2 := by
  have step1 : SemStep (semInit 3)
      ⟨1, [TaskPhase.inside, TaskPhase.pending, TaskPhase.pending]⟩ := by
    have := SemStep.acquire (semInit 3) 0 (by decide) (by decide)
    simpa [semInit] using this
  have step2 : SemStep ⟨1, [TaskPhase.inside, TaskPhase.pending, TaskPhase.pending]⟩
      ⟨0, [TaskPhase.inside, TaskPhase.inside, TaskPhase.pending]⟩ := by
    have := SemStep.acquire
      ⟨1, [TaskPhase.inside, TaskPhase.pending, TaskPhase.pending]⟩ 1 (by decide) (by decide)
    simpa using this
  have hreach : SemReachable 3
      ⟨0, [TaskPhase.inside, TaskPhase.inside, TaskPhase.pending]⟩ :=
    Relation.ReflTransGen.tail (Relation.ReflTransGen.tail Relation.ReflTransGen.refl step1) step2
  exact ⟨hreach, (briefing_semaphore_bound 3 _ hreach).1⟩

/-- C7: with a websocket manager and job id in context, every category run
emits `briefing_start` first and exactly once; a `briefing_complete` is
emitted exactly when the (caught) generation result is non-empty, in which
case the whole trace is start, generation call, complete — so no
`briefing_complete` ever follows an empty or raised generation. -/
theorem generateCategoryBriefing_events (docs : List Doc) (cat : String)
    (g : String → GenOutcome) :
    ((generateCategoryBriefing docs cat true g).trace.take 1
      = [Action.event "briefing_start" cat]) ∧
    ((generateCategoryBriefing docs cat true g).trace.count
      (Action.event "briefing_start" cat) = 1) ∧
    (Action.genCall cat ∈ (generateCategoryBriefing docs cat true g).trace →
      (generateCategoryBriefing docs cat true g).trace.take 2
        = [Action.event "briefing_start" cat, Action.genCall cat]) ∧
    ((Action.event "briefing_complete" cat)
        ∈ (generateCategoryBriefing docs cat true g).trace
      ↔ ∃ c, (generateCategoryBriefing docs cat true g).result = .ok c ∧ c ≠ "") ∧
    ((Action.event "briefing_complete" cat)
        ∈ (generateCategoryBriefing docs cat true g).trace →
      (generateCategoryBriefing docs cat true g).trace
        = [Action.event "briefing_start" cat, Action.genCall cat,
            Action.event "briefing_complete" cat]) := by
  simp only [generateCategoryBriefing]
  cases hsd : sortedDocs docs with
  | error e => simp [List.count_cons]
  | ok sd =>
    cases hg : g (promptBody sd) with
    | raise m => simp [hg, List.count_cons]
    | ok t =>
      by_cases ht : pyStrip t = ""
      · simp [hg, ht, List.count_cons]
      · simp [hg, ht, List.count_cons]

/-- C7 witness: a successful generation over one document yields exactly
the start, generation-call, complete trace. -/
theorem generateCategoryBriefing_events_witness :
    (Action.event "briefing_complete" "news")
      ∈ (generateCategoryBriefing [docLow] "news" true
          (fun _ => GenOutcome.ok "text")).trace ∧
    (generateCategoryBriefing [docLow] "news" true
        (fun _ => GenOutcome.ok "text")).trace
      = [Action.event "briefing_start" "news", Action.genCall "news",
          Action.event "briefing_complete" "news"] := by
  have hmem : (Action.event "briefing_complete" "news")
      ∈ (generateCategoryBriefing [docLow] "news" true
          (fun _ => GenOutcome.ok "text")).trace := by
    show Action.event "briefing_complete" "news" ∈
      [Action.event "briefing_start" "news", Action.genCall "news",
        Action.event "briefing_complete" "news"]
    simp
  exact ⟨hmem,
    (generateCategoryBriefing_events [docLow] "news"
      (fun _ => GenOutcome.ok "text")).2.2.2.2 hmem⟩

/-! ### Helper lemmas for the supervisor claims -/

theorem processResearch_ok_some (comp : String) (evs : List StatusEventM)
    (st : FState) (r : String) (h : reportContent st = some r) :
    processResearch comp (.ok evs st)
      = (processingEv :: evs ++
          [⟨"completed", "Research completed successfully", some (r, comp), none⟩],
        some { status := "completed", report := some r, company := some comp }) := by
  show processResearchOk comp evs st = _
  unfold processResearchOk
  rw [h]

theorem processResearch_ok_none (comp : String) (evs : List StatusEventM)
    (st : FState) (h : reportContent st = none) :
    processResearch comp (.ok evs st)
      = (processingEv :: evs ++
          [⟨"failed", softFailMessage, none, some (softFailError st)⟩], none) := by
  show processResearchOk comp evs st = _
  unfold processResearchOk
  rw [h]

theorem getLast_cons_concat (a x : StatusEventM) (l : List StatusEventM) :
    (a :: l ++ [x]).getLast? = some x := by
  rw [show a :: l ++ [x] = (a :: l) ++ [x] from rfl]
  exact List.getLast?_concat _

/-- C1: after the run's updates are merged, a truthy top-level `report`
wins, else a truthy `editor.report` wins, and the terminal event is
`completed` carrying that report; when neither is truthy, the terminal
event is `failed` with the distinguished no-report message whose error text
carries `state['error']` (prefixed `Error: `) when that key holds a
non-empty value — the walrus `if error := state.get('error'):` is a
truthiness test, so an absent or empty error key yields the generic
`No report found` — and that message differs from every hard-failure
message. -/
theorem processResearch_report_selection (comp : String) (evs : List StatusEventM)
    (st : FState) :
    (∀ r, truthyStr st.report = some r →
      (processResearch comp (.ok evs st)).1.getLast?
        = some ⟨"completed", "Research completed successfully", some (r, comp), none⟩) ∧
    (truthyStr st.report = none → ∀ r, truthyStr (editorReport st) = some r →
      (processResearch comp (.ok evs st)).1.getLast?
        = some ⟨"completed", "Research completed successfully", some (r, comp), none⟩) ∧
    (reportContent st = none →
      (processResearch comp (.ok evs st)).1.getLast?
        = some ⟨"failed", softFailMessage, none, some (softFailError st)⟩) ∧
    (∀ e, st.error = some e → e ≠ "" → softFailError st = "Error: " ++ e) ∧
    (st.error = none ∨ st.error = some "" → softFailError st = "No report found") ∧
    (∀ m, (processResearch comp (.raise evs m)).1.getLast?
      = some ⟨"failed", hardFailMessage m, none, some m⟩) ∧
    (∀ m, softFailMessage ≠ hardFailMessage m) := by
  refine ⟨?_, ?_, ?_, ?_, ?_, ?_, softFail_ne_hardFail⟩
  · intro r hr
    have hrc : reportContent st = some r := by
      unfold reportContent
      rw [hr]
    rw [processResearch_ok_some comp evs st r hrc]
    exact getLast_cons_concat _ _ _
  · intro hr1 r hr2
    have hrc : reportContent st = some r := by
      unfold reportContent
      rw [hr1, hr2]
    rw [processResearch_ok_some comp evs st r hrc]
    exact getLast_cons_concat _ _ _
  · intro hrc
    rw [processResearch_ok_none comp evs st hrc]
    exact getLast_cons_concat _ _ _
  · intro e he hne
    simp [softFailError, truthyStr, he, hne]
  · intro he
    rcases he with he | he <;> simp [softFailError, truthyStr, he]
  · intro m
    exact getLast_cons_concat _ _ _

/-- C1 witness: a run ending with no report but a recorded non-empty
`error` emits the soft-failure terminal carrying that error, while a
present-but-empty `error` key falls back to the generic text. -/
theorem processResearch_report_selection_witness :
    reportContent ⟨none, none, some "boom"⟩ = none ∧
    (processResearch "Acme" (.ok [] ⟨none, none, some "boom"⟩)).1.getLast?
      = some ⟨"failed", softFailMessage, none, some "Error: boom"⟩ ∧
    softFailError ⟨none, none, some "boom"⟩ = "Error: boom" ∧
    softFailError ⟨none, none, some ""⟩ = "No report found" := by
  refine ⟨rfl, ?_, ?_, ?_⟩
  · exact (processResearch_report_selection "Acme" [] ⟨none, none, some "boom"⟩).2.2.1 rfl
  · exact (processResearch_report_selection "Acme" [] ⟨none, none, some "boom"⟩).2.2.2.1
      "boom" rfl (by decide)
  · exact (processResearch_report_selection "Acme" [] ⟨none, none, some ""⟩).2.2.2.2.1
      (Or.inr rfl)

/-- C8 (counterexample): the claim fails for `failed` jobs: a hard-failed
run reaches the terminal `failed` event, yet it leaves no `job_status`
entry, so a late-attaching observer receives no catch-up event at all. -/
theorem catchUp_failed_job_counterexample :
    (processResearch "Acme" (.raise [] "boom")).1.getLast?
      = some ⟨"failed", hardFailMessage "boom", none, some "boom"⟩ ∧
    (processResearch "Acme" (.raise [] "boom")).2 = none ∧
    catchUpEvent (processResearch "Acme" (.raise [] "boom")).2 = none := by
  exact ⟨rfl, rfl, rfl⟩

/-- C8 (amended): a late observer of a job that completed receives a
catch-up event whose status/result/error equal the stored entry's fields;
a job with no store entry — every failed job, since the failure paths never
write the store — produces no catch-up event. -/
theorem catchUp_completed_matches_store (comp : String) (g : GraphOutcome) :
    (∀ evs st r, g = .ok evs st → reportContent st = some r →
      ∃ rec : JobRecord, (processResearch comp g).2 = some rec ∧
        rec.status = "completed" ∧
        catchUpEvent (processResearch comp g).2
          = some ⟨rec.status, "Connected to status stream", rec.result, rec.error⟩) ∧
    ((processResearch comp g).2 = none →
      catchUpEvent (processResearch comp g).2 = none) := by
  constructor
  · intro evs st r hg hrc
    subst hg
    rw [processResearch_ok_some comp evs st r hrc]
    exact ⟨{ status := "completed", report := some r, company := some comp },
      rfl, rfl, rfl⟩
  · intro h
    rw [h]
    rfl

/-- C8 witness: a completed run writes the store and the late observer's
catch-up event mirrors it. -/
theorem catchUp_completed_matches_store_witness :
    reportContent ⟨some "R", none, none⟩ = some "R" ∧
    ∃ rec : JobRecord,
      (processResearch "Acme" (.ok [] ⟨some "R", none, none⟩)).2 = some rec ∧
      rec.status = "completed" ∧
      catchUpEvent (processResearch "Acme" (.ok [] ⟨some "R", none, none⟩)).2
        = some ⟨rec.status, "Connected to status stream", rec.result, rec.error⟩ := by
  exact ⟨rfl,
    (catchUp_completed_matches_store "Acme" (.ok [] ⟨some "R", none, none⟩)).1
      [] ⟨some "R", none, none⟩ "R" rfl rfl⟩

/-- C9: for one job the supervisor emits `processing`, then the engine's
stage events, then exactly one terminal event (`completed` on a report,
`failed` on a soft or hard failure), and nothing after it: every
non-terminal position of the trace is a non-terminal status. -/
theorem processResearch_status_lifecycle (comp : String) (g : GraphOutcome)
    (hstage : ∀ e ∈ g.events, e.status ≠ "completed" ∧ e.status ≠ "failed") :
    ∃ term : StatusEventM,
      (term.status = "completed" ∨ term.status = "failed") ∧
      (processResearch comp g).1 = processingEv :: g.events ++ [term] ∧
      (∀ e ∈ ((processResearch comp g).1).dropLast,
        e.status ≠ "completed" ∧ e.status ≠ "failed") := by
  have hdrop : ∀ (l : List StatusEventM) (x : StatusEventM),
      (processingEv :: l ++ [x]).dropLast = processingEv :: l := by
    intro l x
    rw [show processingEv :: l ++ [x] = (processingEv :: l) ++ [x] from rfl]
    exact List.dropLast_concat ..
  have hproc : processingEv.status ≠ "completed" ∧ processingEv.status ≠ "failed" := by
    constructor <;> decide
  cases g with
  | raise evs m =>
    refine ⟨⟨"failed", hardFailMessage m, none, some m⟩, Or.inr rfl, rfl, ?_⟩
    intro e he
    rw [show (processResearch comp (.raise evs m)).1
        = processingEv :: evs ++ [⟨"failed", hardFailMessage m, none, some m⟩] from rfl,
      hdrop] at he
    rcases List.mem_cons.mp he with rfl | he2
    · exact hproc
    · exact hstage e he2
  | ok evs st =>
    cases hrc : reportContent st with
    | some r =>
      refine ⟨⟨"completed", "Research completed successfully", some (r, comp), none⟩,
        Or.inl rfl, ?_, ?_⟩
      · rw [processResearch_ok_some comp evs st r hrc]
        rfl
      · intro e he
        rw [processResearch_ok_some comp evs st r hrc] at he
        rw [hdrop] at he
        rcases List.mem_cons.mp he with rfl | he2
        · exact hproc
        · exact hstage e he2
    | none =>
      refine ⟨⟨"failed", softFailMessage, none, some (softFailError st)⟩,
        Or.inr rfl, ?_, ?_⟩
      · rw [processResearch_ok_none comp evs st hrc]
        rfl
      · intro e he
        rw [processResearch_ok_none comp evs st hrc] at he
        rw [hdrop] at he
        rcases List.mem_cons.mp he with rfl | he2
        · exact hproc
        · exact hstage e he2

/-- C9 witness: a run with no stage events and a report yields the
`processing`-then-`completed` trace. -/
theorem processResearch_status_lifecycle_witness :
    (∀ e ∈ (GraphOutcome.ok [] ⟨some "R", none, none⟩).events,
      e.status ≠ "completed" ∧ e.status ≠ "failed") ∧
    ∃ term : StatusEventM,
      (term.status = "completed" ∨ term.status = "failed") ∧
      (processResearch "Acme" (.ok [] ⟨some "R", none, none⟩)).1
        = processingEv :: (GraphOutcome.ok [] ⟨some "R", none, none⟩).events ++ [term] ∧
      (∀ e ∈ ((processResearch "Acme" (.ok [] ⟨some "R", none, none⟩)).1).dropLast,
        e.status ≠ "completed" ∧ e.status ≠ "failed") := by
  refine ⟨by simp [GraphOutcome.events], ?_⟩
  exact processResearch_status_lifecycle "Acme" (.ok [] ⟨some "R", none, none⟩)
    (by simp [GraphOutcome.events])

/-- C10: the in-memory `job_status` store is written only on the
successful-completion path — a completed record with report and company —
while both failure paths (hard exception and missing report) leave the
store untouched, where the defaultdict factory still answers `pending`. -/
theorem processResearch_store_frame (comp : String) (g : GraphOutcome) :
    (∀ evs st r, g = .ok evs st → reportContent st = some r →
      (processResearch comp g).2
        = some { status := "completed", report := some r, company := some comp }) ∧
    (∀ evs st, g = .ok evs st → reportContent st = none →
      (processResearch comp g).2 = none) ∧
    (∀ evs m, g = .raise evs m → (processResearch comp g).2 = none) ∧
    (storeLookup none).status = "pending" := by
  refine ⟨?_, ?_, ?_, rfl⟩
  · intro evs st r hg hrc
    subst hg
    rw [processResearch_ok_some comp evs st r hrc]
  · intro evs st hg hrc
    subst hg
    rw [processResearch_ok_none comp evs st hrc]
  · intro evs m hg
    subst hg
    rfl

/-- C10 witness: a hard-failed run leaves no store entry and the
defaultdict read still answers `pending`. -/
theorem processResearch_store_frame_witness :
    (processResearch "Acme" (.raise [] "err")).2 = none ∧
    (storeLookup none).status = "pending" := by
  exact ⟨(processResearch_store_frame "Acme" (.raise [] "err")).2.2.1 [] "err" rfl,
    (processResearch_store_frame "Acme" (.raise [] "err")).2.2.2⟩

end CRA
